import Mathlib

/-!
Verification of `src/exercises/threads/dining_philosophers.rs`.

The Rust program spawns one thread per philosopher; each philosopher locks
the fork at its `left` index, then the fork at its `right` index, prints
"<name> is eating.", sleeps 1000 ms, prints "<name> is done eating.", and
releases both forks when the guards go out of scope.

We embed the program as a small-step interleaving semantics: a scheduler
(a list of thread ids) picks which thread performs its next statement.
Each fork slot carries the list of threads currently holding it (a free
`Mutex<()>` is the empty list; `lock()` only proceeds when the list is
empty, which is the mutex's blocking semantics).  Every executed statement
is appended to an event trace so that output and lock-order properties can
be stated.
-/

/-- Embeds the Rust `struct Philosopher { name, left, right }`. -/
structure Philosopher where
  name : String
  left : Nat
  right : Nat
deriving DecidableEq, Repr

/-- Embeds `Philosopher::new(name, left, right)` (`name.to_string()` is the identity here). -/
def Philosopher.new (name : String) (left : Nat) (right : Nat) : Philosopher :=
  { name := name, left := left, right := right }

/-- Embeds the roster built in `main` (lines 46-58).  Note the ACTIVE source line for
Michel Foucault is `Philosopher::new("Michel Foucault", 4, 0)`; the swapped
`(0, 4)` variant is commented out in the source. -/
def philosophers : List Philosopher :=
  [Philosopher.new "Judith Butler" 0 1,
   Philosopher.new "Gilles Deleuze" 1 2,
   Philosopher.new "Karl Marx" 2 3,
   Philosopher.new "Emma Goldman" 3 4,
   Philosopher.new "Michel Foucault" 4 0]

/-- Embeds the table construction in `main` (lines 63-69): five `Mutex::new(())`.
A mutex slot is the list of thread ids currently holding it; `Mutex::new(())`
starts unheld, i.e. `[]`. -/
def tableForks : List (List Nat) := [[], [], [], [], []]

/-- Events a thread can perform, tagged with the thread id. -/
inductive Event where
  | acquire : Nat → Nat → Event
  | release : Nat → Nat → Event
  | output : Nat → String → Event
  | sleep : Nat → Nat → Event
deriving DecidableEq, Repr

/-- The thread that performed an event. -/
def Event.tid : Event → Nat
  | Event.acquire t _ => t
  | Event.release t _ => t
  | Event.output t _ => t
  | Event.sleep t _ => t

/-- Whether an event is a `println!` line. -/
def Event.isOutput : Event → Bool
  | Event.output _ _ => true
  | _ => false

/-- Global state: the fork slots (holder lists), one program counter per
thread, and the trace of executed events. -/
structure State where
  forks : List (List Nat)
  pcs : List Nat
  trace : List Event
deriving DecidableEq, Repr

/-- The initial state: the freshly built table, every thread at the start of
`eat`, empty trace. -/
def initState : State :=
  { forks := tableForks, pcs := List.replicate philosophers.length 0, trace := [] }

/-- Releasing a fork removes the releasing thread from the slot's holder list
(the `MutexGuard` drop). -/
def releaseFork (forks : List (List Nat)) (f : Nat) (tid : Nat) : List (List Nat) :=
  forks.set f ((forks[f]?.getD []).erase tid)

/-- One statement of `Philosopher::eat` for thread `i` running philosopher `p`,
by program counter:
pc 0: `let _left  = table.forks[self.left].lock().unwrap();`  (blocks unless free)
pc 1: `let _right = table.forks[self.right].lock().unwrap();` (blocks unless free)
pc 2: `println!("{} is eating.", self.name);`
pc 3: `thread::sleep(Duration::from_millis(1000));`
pc 4: `println!("{} is done eating.", self.name);`
pc 5: scope exit: both guards drop (`_right` first, then `_left`)
pc 6: the thread has returned; no further step.
`none` means the thread cannot step (blocked on a lock, or finished). -/
def stepAt (s : State) (i : Nat) (p : Philosopher) : Nat → Option State
  | 0 =>
    match s.forks[p.left]? with
    | some [] =>
      some { forks := s.forks.set p.left [i], pcs := s.pcs.set i 1,
             trace := s.trace ++ [Event.acquire i p.left] }
    | _ => none
  | 1 =>
    match s.forks[p.right]? with
    | some [] =>
      some { forks := s.forks.set p.right [i], pcs := s.pcs.set i 2,
             trace := s.trace ++ [Event.acquire i p.right] }
    | _ => none
  | 2 =>
    some { s with pcs := s.pcs.set i 3,
                  trace := s.trace ++ [Event.output i (p.name ++ " is eating.")] }
  | 3 =>
    some { s with pcs := s.pcs.set i 4,
                  trace := s.trace ++ [Event.sleep i 1000] }
  | 4 =>
    some { s with pcs := s.pcs.set i 5,
                  trace := s.trace ++ [Event.output i (p.name ++ " is done eating.")] }
  | 5 =>
    some { forks := releaseFork (releaseFork s.forks p.right i) p.left i,
           pcs := s.pcs.set i 6,
           trace := s.trace ++ [Event.release i p.right, Event.release i p.left] }
  | _ => none

/-- Attempt one step of thread `i`. -/
def stepThread (s : State) (i : Nat) : Option State :=
  (philosophers[i]?).bind fun p => (s.pcs[i]?).bind fun pc => stepAt s i p pc

/-- Run a schedule from the initial state; a scheduled thread that cannot
step leaves the state unchanged. -/
def run (sched : List Nat) : State :=
  sched.foldl (fun s i => (stepThread s i).getD s) initState

/-- Every thread has returned from `eat`. -/
def allDone (s : State) : Bool :=
  s.pcs.all (fun pc => pc = 6)

/-- No thread can take a step, yet not all threads are done: a deadlock. -/
def deadlocked (s : State) : Bool :=
  ((List.range s.pcs.length).all (fun i => (stepThread s i).isNone)) && !(allDone s)

/-- The events of thread `i` in a trace, in order. -/
def threadEvents (i : Nat) (t : List Event) : List Event :=
  t.filter (fun e => e.tid == i)

/-- The `println!` lines of a trace, in order. -/
def outputLines (t : List Event) : List Event :=
  t.filter Event.isOutput

/-- The full event sequence a complete execution of `eat` by thread `i`
running philosopher `p` produces, in program order. -/
def eatEvents (i : Nat) (p : Philosopher) : List Event :=
  [Event.acquire i p.left, Event.acquire i p.right,
   Event.output i (p.name ++ " is eating."), Event.sleep i 1000,
   Event.output i (p.name ++ " is done eating."),
   Event.release i p.right, Event.release i p.left]

/-- How many events of `eatEvents` a thread at a given program counter has
already emitted. -/
def prefixLen : Nat → Nat
  | 0 => 0
  | 1 => 1
  | 2 => 2
  | 3 => 3
  | 4 => 4
  | 5 => 5
  | _ => 7

/-- A sequential schedule: each thread runs its whole `eat` before the next
starts (6 steps per thread).  With the compiled-in roster this completes. -/
def seqSched : List Nat :=
  [0, 0, 0, 0, 0, 0, 1, 1, 1, 1, 1, 1, 2, 2, 2, 2, 2, 2,
   3, 3, 3, 3, 3, 3, 4, 4, 4, 4, 4, 4]

/-- Embeds the `Result<MutexGuard, PoisonError<..>>` returned by `Mutex::lock()`
once the mutex is available. -/
inductive LockResult where
  | ok : LockResult
  | err : LockResult
deriving DecidableEq, Repr

/-- `Mutex::lock()` after the wait ends: returns `Err(PoisonError)` iff a prior
holder panicked while holding the lock, `Ok(guard)` otherwise. -/
def mutexLock (poisoned : Bool) : LockResult :=
  if poisoned then LockResult.err else LockResult.ok

/-- Outcome of a Rust expression that either panics or yields a value. -/
inductive PanicOr (α : Type) where
  | panic : PanicOr α
  | value : α → PanicOr α
deriving DecidableEq, Repr

/-- `Result::unwrap()` applied to a lock result: panics on `Err`. -/
def unwrapLock : LockResult → PanicOr Unit
  | LockResult.ok => PanicOr.value ()
  | LockResult.err => PanicOr.panic

/-- `table.forks[idx].lock().unwrap()`: the outcome once the lock is free. -/
def acquireOutcome (poisoned : Bool) : PanicOr Unit :=
  unwrapLock (mutexLock poisoned)

/-- How a joined thread ended (the `Result` of `JoinHandle::join()`). -/
inductive TaskResult where
  | completed : TaskResult
  | panicked : TaskResult
deriving DecidableEq, Repr

/-- How `main` ends. -/
inductive CoordOutcome where
  | success : CoordOutcome
  | fatal : CoordOutcome
deriving DecidableEq, Repr

/-- Embeds the join loop in `main` (lines 85-87):
`for h in handles { h.join().unwrap(); }` — the first panicked task makes the
`unwrap()` panic in `main` (fatal); otherwise the loop consumes every handle
and `main` returns normally. -/
def joinAll : List TaskResult → CoordOutcome
  | [] => CoordOutcome.success
  | TaskResult.completed :: rest => joinAll rest
  | TaskResult.panicked :: _ => CoordOutcome.fatal

/-- The execution invariant: the thread and fork counts never change, every
trace event belongs to a roster thread, each thread's program counter is in
range and its events so far are exactly the program-order prefix of `eat`
determined by its counter, and every fork is held by at most one thread. -/
def StateInv (s : State) : Prop :=
  s.pcs.length = philosophers.length ∧
  s.forks.length = tableForks.length ∧
  (∀ e ∈ s.trace, e.tid < philosophers.length) ∧
  (∀ j pj pc, philosophers[j]? = some pj → s.pcs[j]? = some pc →
    pc ≤ 6 ∧ threadEvents j s.trace = (eatEvents j pj).take (prefixLen pc)) ∧
  (∀ (f : Nat) (hs : List Nat), s.forks[f]? = some hs → hs.length ≤ 1)

/-- Claim C1: the compiled-in roster would have the five names with index pairs
(0,1), (1,2), (2,3), (3,4), (0,4).  Evaluating the roster the source actually
builds shows the last pair is the naive (4,0) — the swapped (0,4) line is
commented out — so the claim's pair list does not match the code. -/
theorem c1_roster_eval :
    philosophers.map (fun p => (p.name, p.left, p.right)) =
      [("Judith Butler", 0, 1), ("Gilles Deleuze", 1, 2), ("Karl Marx", 2, 3),
       ("Emma Goldman", 3, 4), ("Michel Foucault", 4, 0)] ∧
    philosophers.map (fun p => (p.left, p.right)) ≠
      [(0, 1), (1, 2), (2, 3), (3, 4), (0, 4)] := by
  constructor
  · rfl
  · decide

/-- Claim C2: the claim says every schedule completes.  Evaluating the code at
the schedule in which each thread acquires its left fork once shows a reachable
state where no thread can step and no thread has finished: a deadlock. -/
theorem c2_deadlock_eval : deadlocked (run [0, 1, 2, 3, 4]) = true := by rfl

/-- Claim C10: across the roster's (left, right) pairs every fork index 0..4
occurs exactly twice, and no philosopher uses the same fork in both hands. -/
theorem c10_fork_usage :
    ((List.range 5).all fun f =>
      (philosophers.flatMap fun p => [p.left, p.right]).count f == 2) = true ∧
    (philosophers.all fun p => p.left != p.right) = true := by
  constructor <;> decide

/-- Claim C5: `main`'s join loop returns normally exactly when every thread
completed normally, and panics (fatal) exactly when some thread panicked. -/
theorem c5_join_propagation (rs : List TaskResult) :
    (joinAll rs = CoordOutcome.success ↔ ∀ r ∈ rs, r = TaskResult.completed) ∧
    (joinAll rs = CoordOutcome.fatal ↔ TaskResult.panicked ∈ rs) := by
  induction rs with
  | nil => simp [joinAll]
  | cons r rest ih =>
    cases r with
    | completed =>
      simp only [joinAll, List.mem_cons]
      constructor
      · constructor
        · intro h r' hr'
          rcases hr' with h' | h'
          · exact h'.symm ▸ rfl
          · exact ih.1.mp h r' h'
        · intro h
          exact ih.1.mpr fun r' hr' => h r' (Or.inr hr')
      · constructor
        · intro h
          exact Or.inr (ih.2.mp h)
        · intro h
          rcases h with h' | h'
          · cases h'
          · exact ih.2.mpr h'
    | panicked =>
      simp [joinAll]

/-- Claim C4: once a lock is available, `lock().unwrap()` panics exactly when
the lock is poisoned; and in the semantics, a thread at its first acquisition
point steps exactly when the slot is free, in which case it obtains the slot
(the holder list becomes the singleton of the acquiring thread). -/
theorem c4_acquire_semantics (poisoned : Bool) (s : State) (i : Nat)
    (p : Philosopher) (hs : List Nat)
    (hp : philosophers[i]? = some p) (hpc : s.pcs[i]? = some 0)
    (hf : s.forks[p.left]? = some hs) :
    (acquireOutcome poisoned = PanicOr.panic ↔ poisoned = true) ∧
    ((stepThread s i).isSome = true ↔ hs = []) ∧
    (hs = [] → stepThread s i =
      some { forks := s.forks.set p.left [i], pcs := s.pcs.set i 1,
             trace := s.trace ++ [Event.acquire i p.left] }) := by
  refine ⟨?_, ?_, ?_⟩
  · cases poisoned <;> simp [acquireOutcome, mutexLock, unwrapLock]
  · rw [stepThread, hp, hpc]
    cases hs with
    | nil => simp [stepAt, hf]
    | cons a t => simp [stepAt, hf]
  · intro h
    subst h
    rw [stepThread, hp, hpc]
    simp [stepAt, hf]

/-- Witness for C4 at the initial state and thread 0 with a free slot. -/
theorem c4_acquire_semantics_witness :
    philosophers[0]? = some (Philosopher.new "Judith Butler" 0 1) ∧
    initState.pcs[0]? = some 0 ∧
    initState.forks[(Philosopher.new "Judith Butler" 0 1).left]? = some [] ∧
    (acquireOutcome true = PanicOr.panic ↔ true = true) :=
  ⟨by rfl, by rfl, by rfl,
    (c4_acquire_semantics true initState 0 (Philosopher.new "Judith Butler" 0 1) []
      (by rfl) (by rfl) (by rfl)).1⟩

theorem roster_bounds : ∀ pj ∈ philosophers, pj.left < 5 ∧ pj.right < 5 := by decide

theorem threadEvents_append (j : Nat) (t u : List Event) :
    threadEvents j (t ++ u) = threadEvents j t ++ threadEvents j u :=
  List.filter_append _ _

theorem threadEvents_eq_nil (j : Nat) (evs : List Event)
    (h : ∀ e ∈ evs, e.tid ≠ j) : threadEvents j evs = [] := by
  rw [threadEvents, List.filter_eq_nil_iff]
  intro e he
  simpa using h e he

theorem threadEvents_eq_self (i : Nat) (evs : List Event)
    (h : ∀ e ∈ evs, e.tid = i) : threadEvents i evs = evs := by
  rw [threadEvents, List.filter_eq_self]
  intro e he
  simpa using h e he

theorem inv_init : StateInv initState := by
  refine ⟨by simp [initState], rfl, ?_, ?_, ?_⟩
  · intro e he
    simp [initState] at he
  · intro j pj pc hpj hpc
    rw [initState] at hpc
    simp only [List.getElem?_replicate] at hpc
    by_cases hj : j < philosophers.length
    · rw [if_pos hj] at hpc
      injection hpc with hpc'
      subst hpc'
      exact ⟨by omega, by simp [threadEvents, initState, prefixLen]⟩
    · rw [if_neg hj] at hpc
      cases hpc
  · intro f hs h
    rw [initState] at h
    obtain ⟨hf, -⟩ := List.getElem?_eq_some_iff.mp h
    simp only [tableForks, List.length_cons, List.length_nil] at hf
    interval_cases f <;> simp_all [tableForks]

theorem releaseFork_length (forks : List (List Nat)) (f tid : Nat) :
    (releaseFork forks f tid).length = forks.length := by
  simp [releaseFork]

theorem releaseFork_mx (forks : List (List Nat)) (f tid : Nat)
    (h : ∀ (g : Nat) (hs : List Nat), forks[g]? = some hs → hs.length ≤ 1) :
    ∀ (g : Nat) (hs : List Nat), (releaseFork forks f tid)[g]? = some hs →
      hs.length ≤ 1 := by
  intro g hs hg
  rw [releaseFork] at hg
  by_cases h1 : f = g
  · subst h1
    by_cases h2 : f < forks.length
    · rw [List.getElem?_set_self h2] at hg
      injection hg with hg'
      subst hg'
      refine le_trans (List.length_erase_le _ _) ?_
      obtain ⟨hs0, hf⟩ : ∃ hs0, forks[f]? = some hs0 := by
        rw [List.getElem?_eq_getElem h2]
        exact ⟨_, rfl⟩
      rw [hf]
      simpa using h f hs0 hf
    · rw [List.set_eq_of_length_le (Nat.le_of_not_lt h2)] at hg
      exact h f hs hg
  · rw [List.getElem?_set_ne h1] at hg
    exact h g hs hg

theorem set_singleton_mx (forks : List (List Nat)) (f i : Nat)
    (h : ∀ (g : Nat) (hs : List Nat), forks[g]? = some hs → hs.length ≤ 1) :
    ∀ (g : Nat) (hs : List Nat), (forks.set f [i])[g]? = some hs →
      hs.length ≤ 1 := by
  intro g hs hg
  by_cases h1 : f = g
  · subst h1
    by_cases h2 : f < forks.length
    · rw [List.getElem?_set_self h2] at hg
      injection hg with hg'
      subst hg'
      simp
    · rw [List.set_eq_of_length_le (Nat.le_of_not_lt h2)] at hg
      exact h f hs hg
  · rw [List.getElem?_set_ne h1] at hg
    exact h g hs hg

/-- One stepped transition preserves the invariant, stated generically over the
new fork table, new program counter and emitted events. -/
theorem inv_update (s : State) (i : Nat) (p : Philosopher) (oldpc newpc : Nat)
    (evs : List Event) (forks' : List (List Nat))
    (hp : philosophers[i]? = some p) (hpc : s.pcs[i]? = some oldpc)
    (hInv : StateInv s)
    (hnew6 : newpc ≤ 6)
    (hforklen : forks'.length = s.forks.length)
    (hforkmx : ∀ (f : Nat) (hs : List Nat), forks'[f]? = some hs → hs.length ≤ 1)
    (htids : ∀ e ∈ evs, e.tid = i)
    (hpre : (eatEvents i p).take (prefixLen oldpc) ++ evs =
      (eatEvents i p).take (prefixLen newpc)) :
    StateInv { forks := forks', pcs := s.pcs.set i newpc, trace := s.trace ++ evs } := by
  obtain ⟨hpl, hfl, htid, hth, hmx⟩ := hInv
  have hi : i < philosophers.length := (List.getElem?_eq_some_iff.mp hp).1
  have hipcs : i < s.pcs.length := (List.getElem?_eq_some_iff.mp hpc).1
  refine ⟨by simpa using hpl, by rw [hforklen, hfl], ?_, ?_, hforkmx⟩
  · intro e he
    rcases List.mem_append.mp he with h' | h'
    · exact htid e h'
    · rw [htids e h']
      exact hi
  · intro j pj pc' hpj hpc'
    by_cases hji : j = i
    · subst hji
      rw [List.getElem?_set_self hipcs] at hpc'
      injection hpc' with hpc''
      subst hpc''
      rw [hp] at hpj
      injection hpj with hpj'
      subst hpj'
      obtain ⟨-, htr⟩ := hth j p oldpc hp hpc
      refine ⟨hnew6, ?_⟩
      rw [threadEvents_append, htr, threadEvents_eq_self j evs htids, hpre]
    · rw [List.getElem?_set_ne (fun hh => hji hh.symm)] at hpc'
      obtain ⟨hpc6', htr'⟩ := hth j pj pc' hpj hpc'
      refine ⟨hpc6', ?_⟩
      rw [threadEvents_append, htr',
        threadEvents_eq_nil j evs (fun e he => by rw [htids e he]; exact Ne.symm hji),
        List.append_nil]

theorem inv_step (s : State) (i : Nat) (h : StateInv s) :
    StateInv ((stepThread s i).getD s) := by
  have hkeep := h
  obtain ⟨hpl, hfl, htid, hth, hmx⟩ := h
  cases hp : philosophers[i]? with
  | none =>
    rw [stepThread, hp]
    exact hkeep
  | some p =>
  cases hpc : s.pcs[i]? with
  | none =>
    rw [stepThread, hp, hpc]
    exact hkeep
  | some pc =>
  have hstep : stepThread s i = stepAt s i p pc := by
    rw [stepThread, hp, hpc]
    rfl
  obtain ⟨hpc6, htr⟩ := hth i p pc hp hpc
  rw [hstep]
  interval_cases pc
  · -- pc = 0: acquire the left fork
    cases hf : s.forks[p.left]? with
    | none => rw [stepAt, hf]; exact hkeep
    | some hs =>
      cases hs with
      | nil =>
        rw [stepAt, hf]
        refine inv_update s i p 0 1 _ _ hp hpc hkeep (by omega) (by simp)
          (set_singleton_mx s.forks p.left i hmx) ?_ ?_
        · intro e he
          simp only [List.mem_singleton] at he
          rw [he, Event.tid]
        · simp [eatEvents, prefixLen]
      | cons a t => rw [stepAt, hf]; exact hkeep
  · -- pc = 1: acquire the right fork
    cases hf : s.forks[p.right]? with
    | none => rw [stepAt, hf]; exact hkeep
    | some hs =>
      cases hs with
      | nil =>
        rw [stepAt, hf]
        refine inv_update s i p 1 2 _ _ hp hpc hkeep (by omega) (by simp)
          (set_singleton_mx s.forks p.right i hmx) ?_ ?_
        · intro e he
          simp only [List.mem_singleton] at he
          rw [he, Event.tid]
        · simp [eatEvents, prefixLen]
      | cons a t => rw [stepAt, hf]; exact hkeep
  · -- pc = 2: print the eating line
    rw [stepAt]
    refine inv_update s i p 2 3 _ _ hp hpc hkeep (by omega) rfl hmx ?_ ?_
    · intro e he
      simp only [List.mem_singleton] at he
      rw [he, Event.tid]
    · simp [eatEvents, prefixLen]
  · -- pc = 3: sleep
    rw [stepAt]
    refine inv_update s i p 3 4 _ _ hp hpc hkeep (by omega) rfl hmx ?_ ?_
    · intro e he
      simp only [List.mem_singleton] at he
      rw [he, Event.tid]
    · simp [eatEvents, prefixLen]
  · -- pc = 4: print the done-eating line
    rw [stepAt]
    refine inv_update s i p 4 5 _ _ hp hpc hkeep (by omega) rfl hmx ?_ ?_
    · intro e he
      simp only [List.mem_singleton] at he
      rw [he, Event.tid]
    · simp [eatEvents, prefixLen]
  · -- pc = 5: both guards drop
    rw [stepAt]
    refine inv_update s i p 5 6 _ _ hp hpc hkeep (by omega)
      (by rw [releaseFork_length, releaseFork_length])
      (releaseFork_mx _ p.left i (releaseFork_mx _ p.right i hmx)) ?_ ?_
    · intro e he
      rcases List.mem_cons.mp he with h' | h'
      · rw [h', Event.tid]
      · rcases List.mem_singleton.mp h' with h''
        rw [h'', Event.tid]
    · simp [eatEvents, prefixLen]
  · -- pc = 6: the thread has returned
    have h6 : stepAt s i p 6 = none := rfl
    rw [h6]
    exact hkeep

theorem inv_foldl (sched : List Nat) (s : State) (h : StateInv s) :
    StateInv (sched.foldl (fun s i => (stepThread s i).getD s) s) := by
  induction sched generalizing s with
  | nil => exact h
  | cons a t ih => exact ih _ (inv_step s a h)

theorem inv_run (sched : List Nat) : StateInv (run sched) :=
  inv_foldl sched initState inv_init

/-- In a completed run each thread's events are exactly its full `eat` event
sequence in program order. -/
theorem threadEvents_of_done (sched : List Nat) (i : Nat) (p : Philosopher)
    (hp : philosophers[i]? = some p) (hdone : allDone (run sched) = true) :
    threadEvents i (run sched).trace = eatEvents i p := by
  obtain ⟨hpl, hfl, htid, hth, hmx⟩ := inv_run sched
  have hi : i < philosophers.length := (List.getElem?_eq_some_iff.mp hp).1
  have hipcs : i < (run sched).pcs.length := by rw [hpl]; exact hi
  obtain ⟨pc, hpc⟩ : ∃ pc, (run sched).pcs[i]? = some pc := by
    rw [List.getElem?_eq_getElem hipcs]
    exact ⟨_, rfl⟩
  have hmem : pc ∈ (run sched).pcs := List.getElem?_mem hpc
  have h6 : pc = 6 := by
    rw [allDone, List.all_eq_true] at hdone
    simpa using hdone pc hmem
  subst h6
  obtain ⟨-, htr⟩ := hth i p 6 hp hpc
  rw [htr]
  rfl

/-- Claim C3: in any completed run, every thread performed, in this exact
order: acquire the left fork, acquire the right fork, print the eating line,
sleep 1000 ms, print the done-eating line, and only then release both guards
(the right guard dropping before the left). -/
theorem c3_eat_order (sched : List Nat) (i : Nat) (p : Philosopher)
    (hp : philosophers[i]? = some p) (hdone : allDone (run sched) = true) :
    threadEvents i (run sched).trace =
      [Event.acquire i p.left, Event.acquire i p.right,
       Event.output i (p.name ++ " is eating."), Event.sleep i 1000,
       Event.output i (p.name ++ " is done eating."),
       Event.release i p.right, Event.release i p.left] :=
  threadEvents_of_done sched i p hp hdone

set_option maxRecDepth 100000 in
/-- Witness for C3: the sequential schedule completes and thread 0's events
are the claimed sequence. -/
theorem c3_eat_order_witness :
    philosophers[0]? = some (Philosopher.new "Judith Butler" 0 1) ∧
    allDone (run seqSched) = true ∧
    threadEvents 0 (run seqSched).trace =
      [Event.acquire 0 0, Event.acquire 0 1,
       Event.output 0 ("Judith Butler" ++ " is eating."), Event.sleep 0 1000,
       Event.output 0 ("Judith Butler" ++ " is done eating."),
       Event.release 0 1, Event.release 0 0] :=
  ⟨rfl, by decide,
    c3_eat_order seqSched 0 (Philosopher.new "Judith Butler" 0 1) rfl (by decide)⟩

/-- Claim C7: at every reachable moment, each fork slot is held by at most one
thread: no two distinct actors simultaneously hold the same resource. -/
theorem c7_mutual_exclusion (sched : List Nat) (f : Nat) (hs : List Nat)
    (hf : (run sched).forks[f]? = some hs) :
    hs.length ≤ 1 ∧ ∀ a ∈ hs, ∀ b ∈ hs, a = b := by
  have h1 := (inv_run sched).2.2.2.2 f hs hf
  refine ⟨h1, ?_⟩
  intro a ha b hb
  cases hs with
  | nil => cases ha
  | cons x t =>
    cases t with
    | nil =>
      rw [List.mem_singleton] at ha hb
      rw [ha, hb]
    | cons y u => simp at h1

/-- Witness for C7: after one step, fork 0 is held by thread 0 alone. -/
theorem c7_mutual_exclusion_witness :
    (run [0]).forks[0]? = some [0] ∧ ([0] : List Nat).length ≤ 1 :=
  ⟨rfl, (c7_mutual_exclusion [0] 0 [0] rfl).1⟩

/-- Claim C8: the table is built with exactly one fork per philosopher (5), and
no operation ever adds or removes a slot: the fork count is the same in every
reachable state. -/
theorem c8_table_capacity (sched : List Nat) :
    initState.forks.length = philosophers.length ∧
    initState.forks.length = 5 ∧
    (run sched).forks.length = initState.forks.length := by
  refine ⟨rfl, rfl, ?_⟩
  have h := (inv_run sched).2.1
  simpa [initState] using h

/-- Claim C9: every roster philosopher's two fork indices are within the
table's bounds in every reachable state, so the two indexing operations in
`eat` always succeed (never the out-of-bounds panic branch). -/
theorem c9_index_in_bounds (sched : List Nat) (i : Nat) (p : Philosopher)
    (hp : philosophers[i]? = some p) :
    p.left < (run sched).forks.length ∧ p.right < (run sched).forks.length ∧
    ((run sched).forks[p.left]?).isSome = true ∧
    ((run sched).forks[p.right]?).isSome = true := by
  have hmem : p ∈ philosophers := List.getElem?_mem hp
  obtain ⟨hl, hr⟩ := roster_bounds p hmem
  have hlen : (run sched).forks.length = 5 := (inv_run sched).2.1
  refine ⟨by omega, by omega, ?_, ?_⟩
  · rw [List.getElem?_eq_getElem (by omega)]
    rfl
  · rw [List.getElem?_eq_getElem (by omega)]
    rfl

/-- Witness for C9 at thread 0 after a single-step run. -/
theorem c9_index_in_bounds_witness :
    philosophers[0]? = some (Philosopher.new "Judith Butler" 0 1) ∧
    ((run [0]).forks[(Philosopher.new "Judith Butler" 0 1).left]?).isSome = true :=
  ⟨rfl, (c9_index_in_bounds [0] 0 (Philosopher.new "Judith Butler" 0 1) rfl).2.2.1⟩

/-- A trace whose events all belong to threads below `n` is a permutation of
its per-thread projections concatenated. -/
theorem perm_threadEvents (n : Nat) (t : List Event)
    (h : ∀ e ∈ t, e.tid < n) :
    List.Perm t ((List.range n).flatMap fun i => threadEvents i t) := by
  induction n generalizing t with
  | zero =>
    have hnil : t = [] := by
      cases t with
      | nil => rfl
      | cons e t' => exact absurd (h e (List.mem_cons_self e t')) (by omega)
    subst hnil
    simp
  | succ m ih =>
    have ht' : ∀ e ∈ t.filter (fun e => !(e.tid == m)), e.tid < m := by
      intro e he
      obtain ⟨het, hbe⟩ := List.mem_filter.mp he
      have h1 := h e het
      have h2 : e.tid ≠ m := by simpa using hbe
      omega
    have hIH := ih _ ht'
    have hflat : ((List.range m).flatMap fun i =>
          threadEvents i (t.filter (fun e => !(e.tid == m)))) =
        (List.range m).flatMap fun i => threadEvents i t := by
      rw [List.flatMap, List.flatMap]
      congr 1
      apply List.map_congr_left
      intro i hi
      have him : i ≠ m := by
        have := List.mem_range.mp hi
        omega
      rw [threadEvents, threadEvents, List.filter_filter]
      apply List.filter_congr
      intro e he
      by_cases h' : e.tid = i
      · simp [h', him]
      · simp [h']
    rw [hflat] at hIH
    have hsplit : List.Perm (threadEvents m t ++ t.filter (fun e => !(e.tid == m))) t :=
      List.filter_append_perm _ t
    have hstep1 : List.Perm t
        (threadEvents m t ++ ((List.range m).flatMap fun i => threadEvents i t)) :=
      hsplit.symm.trans (hIH.append_left (threadEvents m t))
    have hstep2 : List.Perm
        (threadEvents m t ++ ((List.range m).flatMap fun i => threadEvents i t))
        (((List.range m).flatMap fun i => threadEvents i t) ++ threadEvents m t) :=
      List.perm_append_comm
    have hfin : (((List.range m).flatMap fun i => threadEvents i t) ++ threadEvents m t) =
        ((List.range (m + 1)).flatMap fun i => threadEvents i t) := by
      rw [List.range_succ, List.flatMap_append]
      simp
    rw [hfin] at hstep2
    exact hstep1.trans hstep2

/-- Claim C6: a complete run prints exactly 10 lines, and each thread's lines
are exactly its eating line followed by its done-eating line. -/
theorem c6_output_lines (sched : List Nat) (hdone : allDone (run sched) = true) :
    (outputLines (run sched).trace).length = 10 ∧
    ∀ i p, philosophers[i]? = some p →
      outputLines (threadEvents i (run sched).trace) =
        [Event.output i (p.name ++ " is eating."),
         Event.output i (p.name ++ " is done eating.")] := by
  constructor
  · have htid5 : ∀ e ∈ (run sched).trace, e.tid < 5 := (inv_run sched).2.2.1
    have hperm := perm_threadEvents 5 (run sched).trace htid5
    have hcount := hperm.countP_eq Event.isOutput
    rw [outputLines, ← List.countP_eq_length_filter, hcount]
    have e0 := threadEvents_of_done sched 0 (Philosopher.new "Judith Butler" 0 1) rfl hdone
    have e1 := threadEvents_of_done sched 1 (Philosopher.new "Gilles Deleuze" 1 2) rfl hdone
    have e2 := threadEvents_of_done sched 2 (Philosopher.new "Karl Marx" 2 3) rfl hdone
    have e3 := threadEvents_of_done sched 3 (Philosopher.new "Emma Goldman" 3 4) rfl hdone
    have e4 := threadEvents_of_done sched 4 (Philosopher.new "Michel Foucault" 4 0) rfl hdone
    rw [show List.range 5 = [0, 1, 2, 3, 4] from rfl]
    simp only [List.flatMap_cons, List.flatMap_nil, List.append_nil]
    rw [e0, e1, e2, e3, e4]
    decide
  · intro i p hp
    rw [threadEvents_of_done sched i p hp hdone]
    rfl

set_option maxRecDepth 100000 in
/-- Witness for C6: the sequential schedule completes, prints 10 lines, and
thread 0 prints its eating line before its done-eating line. -/
theorem c6_output_lines_witness :
    allDone (run seqSched) = true ∧
    (outputLines (run seqSched).trace).length = 10 ∧
    outputLines (threadEvents 0 (run seqSched).trace) =
      [Event.output 0 ("Judith Butler" ++ " is eating."),
       Event.output 0 ("Judith Butler" ++ " is done eating.")] :=
  ⟨by decide, (c6_output_lines seqSched (by decide)).1,
    (c6_output_lines seqSched (by decide)).2 0 (Philosopher.new "Judith Butler" 0 1) rfl⟩
